import Mathlib

/-!
Shallow embedding of `src/examples/demo-microservices/src/compute/engine.rs`
(compute engine of the cv-git demo microservices).

Finite `f64` values are modelled as exact rationals (`ℚ`); the real numbers
(`ℝ`) appear only where the Rust code applies transcendental operations
(`sqrt`, `cos`, `sin`, `atan2`), whose exact values leave `ℚ`.  IEEE-754
rounding is idealised away: every arithmetic operation is exact.  `f64` NaN
behaviour, where a claim needs it, is modelled by the separate type `F64`.
-/

namespace CvGitCompute

/-- Result of a computation (`ComputeResult`).  The wall-clock field
`duration_ms` is not modelled. -/
structure ComputeResult where
  success : Bool
  value : ℚ
deriving DecidableEq

/-- Rust `data.iter().sum()`: left fold of `+` over the slice, starting at `0`. -/
def iterSum (l : List ℚ) : ℚ := l.foldl (· + ·) 0

/-- Rust `data.iter().product()`: left fold of `*` over the slice, starting at `1`. -/
def iterProd (l : List ℚ) : ℚ := l.foldl (· * ·) 1

/-- Embeds `ComputeEngine::perform_complex_calculation`. -/
def perform_complex_calculation (data : List ℚ) : ℚ :=
  let sum : ℚ := iterSum data
  let product : ℚ := iterProd data
  let squares : ℚ := iterSum (data.map fun x => x * x)
  (sum + product + squares) / (data.length : ℚ)

/-- Embeds `ComputeEngine::compute_heavy_task`. -/
def compute_heavy_task (data : List ℚ) : ComputeResult :=
  { success := true
    value := if data.length = 0 then 0 else perform_complex_calculation data }

/-- Embeds `ComputeEngine::multiply_matrices`.  Out-of-bounds indexing cannot occur
on the rectangular inputs the claims quantify over; `getD` with default `0`
(resp. `[]`) stands for the Rust index operator. -/
def multiply_matrices (a b : List (List ℚ)) : Option (List (List ℚ)) :=
  if a.isEmpty || b.isEmpty then none
  else
    let rows_a := a.length
    let cols_a := (a.getD 0 []).length
    let cols_b := (b.getD 0 []).length
    if cols_a ≠ b.length then none
    else
      some <| (List.range rows_a).map fun i =>
        (List.range cols_b).map fun j =>
          (List.range cols_a).foldl
            (fun acc k => acc + (a.getD i []).getD k 0 * (b.getD k []).getD j 0) 0

/-- Embeds `ComputeEngine::compute_parallel` (the `ParallelCompute` impl):
element-wise squares. -/
def compute_parallel (data : List ℚ) : List ℚ := data.map fun x => x * x

/-- Embeds `OptimizationEngine` (fields `max_iterations`, `tolerance`). -/
structure OptimizationEngine where
  max_iterations : ℕ
  tolerance : ℚ

/-- One loop body of `OptimizationEngine::gradient_descent`: numeric gradient
with `h = 1e-5` and update with `learning_rate = 0.01`. -/
def gdStep (f : ℚ → ℚ) (x : ℚ) : ℚ :=
  let learning_rate : ℚ := 0.01
  let h : ℚ := 1e-5
  let grad := (f (x + h) - f (x - h)) / (2 * h)
  x - learning_rate * grad

/-- The `for _ in 0..max_iterations` loop of `gradient_descent`: on
convergence the Rust code `break`s before the assignment `x = x_new`,
so the pre-update `x` is returned. -/
def gdLoop (tol : ℚ) (f : ℚ → ℚ) : ℕ → ℚ → ℚ
  | 0, x => x
  | fuel + 1, x =>
    let x_new := gdStep f x
    if |x_new - x| < tol then x
    else gdLoop tol f fuel x_new

/-- Embeds `OptimizationEngine::gradient_descent`. -/
def gradient_descent (e : OptimizationEngine) (x : ℚ) (f : ℚ → ℚ) : ℚ :=
  gdLoop e.tolerance f e.max_iterations x

/-- Statistical measures (`struct Statistics`).  All fields computed from the
input stay rational except `std_dev`, the exact square root of the variance. -/
structure Statistics where
  mean : ℚ
  median : ℚ
  std_dev : ℝ
  min : ℚ
  max : ℚ

/-- Embeds `Statistics::default()`: every field zero. -/
def Statistics.zero : Statistics := ⟨0, 0, 0, 0, 0⟩

/-- Embeds `sorted.sort_by(|a, b| a.partial_cmp(b).unwrap())`: on NaN-free data the
comparator is the total order of the values, so the (stable) Rust sort
produces the unique `≤`-sorted permutation of the input; `insertionSort`
produces the same list. -/
def sortF64 (data : List ℚ) : List ℚ := data.insertionSort (· ≤ ·)

/-- Embeds `ComputeEngine::calculate_statistics`. -/
noncomputable def calculate_statistics (data : List ℚ) : Statistics :=
  if data.isEmpty then Statistics.zero
  else
    let sum : ℚ := iterSum data
    let mean : ℚ := sum / (data.length : ℚ)
    let variance : ℚ := iterSum (data.map fun x => (x - mean) ^ 2) / (data.length : ℚ)
    let std_dev : ℝ := Real.sqrt (variance : ℝ)
    let sorted := sortF64 data
    let median : ℚ :=
      if sorted.length % 2 = 0 then
        (sorted.getD (sorted.length / 2 - 1) 0 + sorted.getD (sorted.length / 2) 0) / 2
      else sorted.getD (sorted.length / 2) 0
    { mean := mean
      median := median
      std_dev := std_dev
      min := sorted.headD 0
      max := sorted.getLastD 0 }

/-- Complex number representation (`struct Complex`).  Both components live
in `ℝ` because the Fourier transform fills them with values of `cos`/`sin`. -/
structure Complex where
  real : ℝ
  imag : ℝ

/-- Embeds `ComputeEngine::fourier_transform`: for each `k < n` accumulate
`value * cos(angle)` and `value * sin(angle)` over the enumerated input,
`angle = -2π·(k·t)/n`, in ascending `t` order. -/
noncomputable def fourier_transform (data : List ℚ) : List Complex :=
  let n := data.length
  (List.range n).map fun k =>
    let ri : ℝ × ℝ := data.enum.foldl
      (fun acc tv =>
        let angle : ℝ := -2 * Real.pi * ((k * tv.1 : ℕ) : ℝ) / (n : ℝ)
        (acc.1 + (tv.2 : ℝ) * Real.cos angle, acc.2 + (tv.2 : ℝ) * Real.sin angle))
      (0, 0)
    ⟨ri.1, ri.2⟩

/-- Embeds `Complex::magnitude`. -/
noncomputable def Complex.magnitude (c : Complex) : ℝ :=
  Real.sqrt (c.real * c.real + c.imag * c.imag)

/-- Embeds `f64::atan2(y, x)` on finite (hence unsigned-zero) arguments: the
standard quadrant-corrected arctangent.  Signed zeros do not exist in `ℝ`,
so the `x < 0, y = -0 ↦ -π` branch of the IEEE function is not modelled. -/
noncomputable def atan2 (y x : ℝ) : ℝ :=
  if 0 < x then Real.arctan (y / x)
  else if x < 0 then
    if 0 ≤ y then Real.arctan (y / x) + Real.pi
    else Real.arctan (y / x) - Real.pi
  else
    if 0 < y then Real.pi / 2
    else if y < 0 then -(Real.pi / 2)
    else 0

/-- Embeds `Complex::phase`, i.e. `self.imag.atan2(self.real)`. -/
noncomputable def Complex.phase (c : Complex) : ℝ := atan2 c.imag c.real

/-- A double as the sort comparator sees it: NaN or a finite value.
(Infinities compare like ordinary values in `partial_cmp`, so they need no
separate constructor for the claims at hand.) -/
inductive F64 where
  | nan : F64
  | num : ℚ → F64
deriving DecidableEq

/-- Embeds `f64::partial_cmp`: `None` exactly when a NaN is involved. -/
def F64.pcmp : F64 → F64 → Option Ordering
  | .num x, .num y => some (compare x y)
  | _, _ => none

/-- The numeric value of a non-NaN double (default `0` on NaN). -/
def F64.val : F64 → ℚ
  | .nan => 0
  | .num q => q

/-- Whether the double is NaN. -/
def F64.isNan : F64 → Bool
  | .nan => true
  | .num _ => false

/-- Embeds `calculate_statistics` with its panic behaviour made explicit: `none`
models a panic of `partial_cmp(..).unwrap()` inside the sort comparator,
which can only fire when a NaN is present; on NaN-free input the function
is the pure `calculate_statistics` on the values.  (`first()`/`last()`
unwraps cannot fire: the sorted copy of a non-empty list is non-empty.) -/
noncomputable def calculate_statisticsChecked (data : List F64) : Option Statistics :=
  if data.isEmpty then some Statistics.zero
  else if data.all fun x => !x.isNan then
    some (calculate_statistics (data.map F64.val))
  else none

/-! ### Helper lemmas -/

lemma foldl_add_eq (l : List ℚ) : ∀ c : ℚ, l.foldl (· + ·) c = c + l.sum := by
  induction l with
  | nil => simp
  | cons a l ih => intro c; simp only [List.foldl_cons, ih, List.sum_cons]; ring

lemma iterSum_eq_sum (l : List ℚ) : iterSum l = l.sum := by
  simp [iterSum, foldl_add_eq]

lemma foldl_mul_eq (l : List ℚ) : ∀ c : ℚ, l.foldl (· * ·) c = c * l.prod := by
  induction l with
  | nil => simp
  | cons a l ih => intro c; simp only [List.foldl_cons, ih, List.prod_cons]; ring

lemma iterProd_eq_prod (l : List ℚ) : iterProd l = l.prod := by
  simp [iterProd, foldl_mul_eq]

lemma foldl_range_add (f : ℕ → ℚ) :
    ∀ (n : ℕ) (c : ℚ),
      (List.range n).foldl (fun acc k => acc + f k) c = c + ∑ k in Finset.range n, f k := by
  intro n
  induction n with
  | zero => intro c; simp
  | succ n ih =>
    intro c
    rw [List.range_succ, List.foldl_append, ih, Finset.sum_range_succ]
    simp [add_assoc]

lemma getD_map_range {α : Type*} (f : ℕ → α) (n i : ℕ) (d : α) (h : i < n) :
    ((List.range n).map f).getD i d = f i := by
  rw [List.getD_eq_getElem?_getD, List.getElem?_map, List.getElem?_range h]
  rfl

/-- The convergence test of one `gradient_descent` iteration at the `i`-th
iterate of the update map. -/
def gdConv (tol : ℚ) (f : ℚ → ℚ) (x0 : ℚ) (i : ℕ) : Prop :=
  |gdStep f ((gdStep f)^[i] x0) - (gdStep f)^[i] x0| < tol

lemma gdConv_succ_iff (tol : ℚ) (f : ℚ → ℚ) (x0 : ℚ) (i : ℕ) :
    gdConv tol f x0 (i + 1) ↔ gdConv tol f (gdStep f x0) i := by
  simp [gdConv, Function.iterate_succ_apply]

lemma gdLoop_no_conv (tol : ℚ) (f : ℚ → ℚ) :
    ∀ (m : ℕ) (x0 : ℚ), (∀ i < m, ¬ gdConv tol f x0 i) →
      gdLoop tol f m x0 = (gdStep f)^[m] x0 := by
  intro m
  induction m with
  | zero => intro x0 _; rfl
  | succ n ih =>
    intro x0 h
    have h0 : ¬ |gdStep f x0 - x0| < tol := by
      have := h 0 (Nat.succ_pos n); simpa [gdConv] using this
    rw [gdLoop, if_neg h0, ih (gdStep f x0), ← Function.iterate_succ_apply]
    intro i hi
    have := h (i + 1) (by omega)
    rwa [gdConv_succ_iff] at this

lemma gdLoop_conv (tol : ℚ) (f : ℚ → ℚ) :
    ∀ (i0 : ℕ) (m : ℕ) (x0 : ℚ), i0 < m → gdConv tol f x0 i0 →
      (∀ j < i0, ¬ gdConv tol f x0 j) →
      gdLoop tol f m x0 = (gdStep f)^[i0] x0 := by
  intro i0
  induction i0 with
  | zero =>
    intro m x0 hm hc _
    obtain ⟨n, rfl⟩ : ∃ n, m = n + 1 := ⟨m - 1, by omega⟩
    have hc' : |gdStep f x0 - x0| < tol := by simpa [gdConv] using hc
    rw [gdLoop, if_pos hc']
    simp
  | succ i ih =>
    intro m x0 hm hc hj
    obtain ⟨n, rfl⟩ : ∃ n, m = n + 1 := ⟨m - 1, by omega⟩
    have h0 : ¬ |gdStep f x0 - x0| < tol := by
      have := hj 0 (Nat.succ_pos i); simpa [gdConv] using this
    rw [gdLoop, if_neg h0, ih n (gdStep f x0) (by omega) ((gdConv_succ_iff _ _ _ _).mp hc)
      (fun j hji => by
        have := hj (j + 1) (by omega)
        rwa [gdConv_succ_iff] at this),
      ← Function.iterate_succ_apply]

/-! ### Claim theorems -/

/-- C1 (counterexample): with `max_iterations = 1`, `tolerance = 1`,
`x0 = 1` and `f x = x * x`, the very first iteration converges
(`|x_new − x| = 1/50 < 1`), yet `gradient_descent` does not return that
`x_new = gdStep f 1 = 49/50`: the loop `break`s before the assignment
`x = x_new` and returns the pre-update `x = 1`. -/
theorem gradient_descent_counterexample :
    |gdStep (fun x => x * x) 1 - 1| < 1 ∧
      gradient_descent ⟨1, 1⟩ 1 (fun x => x * x) ≠ gdStep (fun x => x * x) 1 := by
  norm_num [gradient_descent, gdLoop, gdStep, abs_lt]

/-- C1 (amended): `gradient_descent` iterates `x_new = gdStep f x`; on the
first iteration whose update is smaller than the tolerance it stops and
returns the current `x` (the value before that update), and if no iteration
converges within `max_iterations` it returns the last `x_new`, i.e. the
`max_iterations`-th iterate of the update map. -/
theorem gradient_descent_spec (e : OptimizationEngine) (f : ℚ → ℚ) (x0 : ℚ)
    (hm : 1 ≤ e.max_iterations) :
    ((∀ i < e.max_iterations, ¬ gdConv e.tolerance f x0 i) →
        gradient_descent e x0 f = (gdStep f)^[e.max_iterations] x0)
    ∧ ∀ i0 < e.max_iterations, gdConv e.tolerance f x0 i0 →
        (∀ j < i0, ¬ gdConv e.tolerance f x0 j) →
        gradient_descent e x0 f = (gdStep f)^[i0] x0 := by
  refine ⟨fun h => gdLoop_no_conv _ f _ x0 h, fun i0 hi0 hc hj => ?_⟩
  exact gdLoop_conv _ f i0 _ x0 hi0 hc hj

/-- Witness for C1: at `max_iterations = 1`, `tolerance = 1`, `x0 = 1`,
`f x = x * x`, iteration `0` converges and the function returns the
pre-update iterate `(gdStep f)^[0] 1 = 1`. -/
theorem gradient_descent_spec_witness :
    gradient_descent ⟨1, 1⟩ 1 (fun x => x * x) = (gdStep (fun x => x * x))^[0] 1 :=
  (gradient_descent_spec ⟨1, 1⟩ (fun x => x * x) 1 (by norm_num)).2 0 (by norm_num)
    (by norm_num [gdConv, gdStep, abs_lt]) (by omega)

/-- C2: `multiply_matrices` returns `none` exactly when `a` is empty, `b` is
empty, or the column count of `a` differs from the row count of `b`; on a
present result `c`, the shape is `rows a × cols b` and
`c[i][j] = ∑ k < cols a, a[i][k] * b[k][j]` (the ascending-`k` running sum of
the code equals this `Finset.range` sum, proved via `foldl_range_add`). -/
theorem multiply_matrices_spec (a b : List (List ℚ))
    (ha : ∀ row ∈ a, row.length = (a.getD 0 []).length)
    (hb : ∀ row ∈ b, row.length = (b.getD 0 []).length) :
    (multiply_matrices a b = none ↔
      a = [] ∨ b = [] ∨ (a.getD 0 []).length ≠ b.length)
    ∧ ∀ c, multiply_matrices a b = some c →
        c.length = a.length
        ∧ (∀ row ∈ c, row.length = (b.getD 0 []).length)
        ∧ ∀ i j, i < a.length → j < (b.getD 0 []).length →
            (c.getD i []).getD j 0 =
              ∑ k in Finset.range (a.getD 0 []).length,
                (a.getD i []).getD k 0 * (b.getD k []).getD j 0 := by
  constructor
  · simp only [multiply_matrices, List.isEmpty_iff, Bool.or_eq_true, decide_eq_true_eq]
    split_ifs with h1 h2
    · simp only [true_iff]
      tauto
    · simp only [true_iff]
      tauto
    · push_neg at h1 h2
      simp only [false_iff]
      push_neg
      exact ⟨h1.1, h1.2, h2⟩
  · intro c hc
    simp only [multiply_matrices, List.isEmpty_iff, Bool.or_eq_true, decide_eq_true_eq] at hc
    split_ifs at hc with h1 h2
    rw [Option.some_inj] at hc
    subst hc
    refine ⟨by simp, ?_, ?_⟩
    · intro row hrow
      simp only [List.mem_map, List.mem_range] at hrow
      obtain ⟨i, _, rfl⟩ := hrow
      simp
    · intro i j hi hj
      rw [getD_map_range _ _ _ _ hi, getD_map_range _ _ _ _ hj,
        foldl_range_add (fun k => (a.getD i []).getD k 0 * (b.getD k []).getD j 0)]
      simp

/-- Witness for C2 (the spec's own example): for
`A = [[1,2],[3,4]]`, `B = [[5,6],[7,8]]` the absence condition is settled
by the theorem's `iff`. -/
theorem multiply_matrices_spec_witness :
    multiply_matrices [[(1 : ℚ), 2], [3, 4]] [[5, 6], [7, 8]] = none ↔
      ([[(1 : ℚ), 2], [3, 4]] : List (List ℚ)) = [] ∨
        ([[(5 : ℚ), 6], [7, 8]] : List (List ℚ)) = [] ∨
        (([[(1 : ℚ), 2], [3, 4]] : List (List ℚ)).getD 0 []).length ≠
          ([[(5 : ℚ), 6], [7, 8]] : List (List ℚ)).length :=
  (multiply_matrices_spec [[1, 2], [3, 4]] [[5, 6], [7, 8]]
    (by simp) (by simp)).1

/-- C3: `compute_heavy_task` always succeeds; its value is `0` on empty
input and otherwise `(sum + product + sum of squares) / length`, each
reduction a left-to-right fold; on `[1,2,3,4,5]` the value is
`(15 + 120 + 55) / 5 = 38`.  (IEEE-754 rounding is idealised as exact
arithmetic, under which the left-to-right folds equal `List.sum`/`List.prod`.) -/
theorem compute_heavy_task_spec (data : List ℚ) :
    (compute_heavy_task data).success = true
    ∧ (compute_heavy_task data).value =
        (if data = [] then 0
         else (data.sum + data.prod + (data.map fun x => x * x).sum) / (data.length : ℚ))
    ∧ (compute_heavy_task [1, 2, 3, 4, 5]).value = 38 := by
  refine ⟨rfl, ?_, ?_⟩
  · simp only [compute_heavy_task, perform_complex_calculation, iterSum_eq_sum,
      iterProd_eq_prod, List.length_eq_zero]
  · norm_num [compute_heavy_task, perform_complex_calculation, iterSum, iterProd, List.foldl]

/-- C7: `compute_parallel` preserves length and order and squares each
element in place. -/
theorem compute_parallel_spec (data : List ℚ) :
    (compute_parallel data).length = data.length
    ∧ ∀ i : ℕ, (compute_parallel data)[i]? = data[i]?.map fun x => x * x := by
  refine ⟨by simp [compute_parallel], fun i => ?_⟩
  simp [compute_parallel, List.getElem?_map]

/-! ### Sorting and statistics helper lemmas -/

lemma sortF64_sorted (l : List ℚ) : (sortF64 l).Sorted (· ≤ ·) :=
  List.sorted_insertionSort _ l

lemma sortF64_perm (l : List ℚ) : List.Perm (sortF64 l) l :=
  List.perm_insertionSort _ l

lemma eq_sortF64_of_perm_sorted {s l : List ℚ} (hp : List.Perm s l) (hs : s.Sorted (· ≤ ·)) :
    s = sortF64 l :=
  List.eq_of_perm_of_sorted (hp.trans (sortF64_perm l).symm) hs (sortF64_sorted l)

lemma sorted_headD_le {l : List ℚ} (hs : l.Sorted (· ≤ ·)) :
    ∀ x ∈ l, l.headD 0 ≤ x := by
  cases l with
  | nil => simp
  | cons a t =>
    intro x hx
    rcases List.mem_cons.mp hx with rfl | hxt
    · simp
    · simpa using (List.sorted_cons.mp hs).1 x hxt

lemma sorted_le_getLastD {l : List ℚ} (hs : l.Sorted (· ≤ ·)) :
    ∀ x ∈ l, x ≤ l.getLastD 0 := by
  suffices h : ∀ (l : List ℚ) (d : ℚ), l.Sorted (· ≤ ·) →
      (l.getLastD d = d ∨ l.getLastD d ∈ l) ∧ ∀ x ∈ l, x ≤ l.getLastD d by
    exact (h l 0 hs).2
  intro l
  induction l with
  | nil => simp
  | cons a t ih =>
    intro d hsort
    obtain ⟨hat, hst⟩ := List.sorted_cons.mp hsort
    obtain ⟨hmem, hle⟩ := ih a hst
    rw [List.getLastD_cons]
    constructor
    · rcases hmem with h | h
      · exact Or.inr (by rw [h]; exact List.mem_cons_self a t)
      · exact Or.inr (List.mem_cons_of_mem a h)
    · intro x hx
      rcases List.mem_cons.mp hx with rfl | hxt
      · rcases hmem with h | h
        · exact h.ge
        · exact hat _ h
      · exact hle x hxt

lemma length_mul_le_sum (l : List ℚ) (m : ℚ) (h : ∀ x ∈ l, m ≤ x) :
    (l.length : ℚ) * m ≤ l.sum := by
  induction l with
  | nil => simp
  | cons a t ih =>
    have ha := h a (List.mem_cons_self a t)
    have ht := ih fun x hx => h x (List.mem_cons_of_mem a hx)
    simp only [List.length_cons, List.sum_cons]
    push_cast
    nlinarith

lemma sum_le_length_mul (l : List ℚ) (m : ℚ) (h : ∀ x ∈ l, x ≤ m) :
    l.sum ≤ (l.length : ℚ) * m := by
  induction l with
  | nil => simp
  | cons a t ih =>
    have ha := h a (List.mem_cons_self a t)
    have ht := ih fun x hx => h x (List.mem_cons_of_mem a hx)
    simp only [List.length_cons, List.sum_cons]
    push_cast
    nlinarith

/-- Unfolding of `calculate_statistics` on non-empty input. -/
lemma calculate_statistics_ne (data : List ℚ) (h : data ≠ []) :
    calculate_statistics data =
      { mean := data.sum / (data.length : ℚ)
        median :=
          if (sortF64 data).length % 2 = 0 then
            ((sortF64 data).getD ((sortF64 data).length / 2 - 1) 0 +
              (sortF64 data).getD ((sortF64 data).length / 2) 0) / 2
          else (sortF64 data).getD ((sortF64 data).length / 2) 0
        std_dev := Real.sqrt
          (((data.map fun x => (x - data.sum / (data.length : ℚ)) ^ 2).sum /
              (data.length : ℚ) : ℚ) : ℝ)
        min := (sortF64 data).headD 0
        max := (sortF64 data).getLastD 0 } := by
  simp only [calculate_statistics, List.isEmpty_iff, if_neg h, iterSum_eq_sum]

/-- C4: on NaN-free input (all values rational here), `calculate_statistics`
returns the all-zero record on `[]`; otherwise `mean = sum / n`,
`std_dev = √(Σ (xᵢ − mean)² / n)` (population variance), the median is read
off any ascending sorted permutation of the input (middle element for odd
length, mean of the two central ones for even length), `min`/`max` are its
first/last elements, and `statistics([1,2,3,4,5]) = (3, 3, √2, 1, 5)`. -/
theorem calculate_statistics_spec (data : List ℚ) (hne : data ≠ []) :
    calculate_statistics [] = Statistics.zero
    ∧ (calculate_statistics data).mean = data.sum / (data.length : ℚ)
    ∧ (calculate_statistics data).std_dev =
        Real.sqrt (((data.map fun x => (x - data.sum / (data.length : ℚ)) ^ 2).sum /
          (data.length : ℚ) : ℚ) : ℝ)
    ∧ (∀ s : List ℚ, List.Perm s data → s.Sorted (· ≤ ·) →
        (calculate_statistics data).median =
          (if s.length % 2 = 0 then
            (s.getD (s.length / 2 - 1) 0 + s.getD (s.length / 2) 0) / 2
           else s.getD (s.length / 2) 0)
        ∧ (calculate_statistics data).min = s.headD 0
        ∧ (calculate_statistics data).max = s.getLastD 0)
    ∧ calculate_statistics [1, 2, 3, 4, 5] = ⟨3, 3, Real.sqrt 2, 1, 5⟩ := by
  rw [calculate_statistics_ne data hne]
  refine ⟨rfl, rfl, rfl, ?_, ?_⟩
  · intro s hp hsorted
    obtain rfl : s = sortF64 data := eq_sortF64_of_perm_sorted hp hsorted
    exact ⟨rfl, rfl, rfl⟩
  · norm_num [calculate_statistics, sortF64, List.insertionSort, List.orderedInsert,
      iterSum, List.foldl, Statistics.zero]

/-- Witness for C4: the spec's own example `[1,2,3,4,5]`. -/
theorem calculate_statistics_spec_witness :
    calculate_statistics [1, 2, 3, 4, 5] = ⟨3, 3, Real.sqrt 2, 1, 5⟩ :=
  (calculate_statistics_spec [1, 2, 3, 4, 5] (List.cons_ne_nil _ _)).2.2.2.2

/-- C9: on non-empty input, `min ≤ mean ≤ max` and `std_dev ≥ 0`. -/
theorem statistics_invariants (data : List ℚ) (hne : data ≠ []) :
    (calculate_statistics data).min ≤ (calculate_statistics data).mean
    ∧ (calculate_statistics data).mean ≤ (calculate_statistics data).max
    ∧ 0 ≤ (calculate_statistics data).std_dev := by
  rw [calculate_statistics_ne data hne]
  have hperm := sortF64_perm data
  have hsort := sortF64_sorted data
  have hlen : 0 < (data.length : ℚ) := by
    have h0 : data.length ≠ 0 := by simpa [List.length_eq_zero] using hne
    exact_mod_cast Nat.pos_of_ne_zero h0
  refine ⟨?_, ?_, Real.sqrt_nonneg _⟩
  · have hminle : ∀ x ∈ data, (sortF64 data).headD 0 ≤ x := fun x hx =>
      sorted_headD_le hsort x (hperm.mem_iff.mpr hx)
    have hsum := length_mul_le_sum data _ hminle
    rw [le_div_iff₀ hlen]
    linarith
  · have hmaxge : ∀ x ∈ data, x ≤ (sortF64 data).getLastD 0 := fun x hx =>
      sorted_le_getLastD hsort x (hperm.mem_iff.mpr hx)
    have hsum := sum_le_length_mul data _ hmaxge
    rw [div_le_iff₀ hlen]
    linarith

/-- Witness for C9 at `[1,2,3,4,5]`. -/
theorem statistics_invariants_witness :
    (calculate_statistics [1, 2, 3, 4, 5]).min ≤ (calculate_statistics [1, 2, 3, 4, 5]).mean
    ∧ (calculate_statistics [1, 2, 3, 4, 5]).mean ≤ (calculate_statistics [1, 2, 3, 4, 5]).max
    ∧ 0 ≤ (calculate_statistics [1, 2, 3, 4, 5]).std_dev :=
  statistics_invariants [1, 2, 3, 4, 5] (List.cons_ne_nil _ _)

/-- C10: on non-empty NaN-free input `calculate_statistics` cannot panic:
the comparator `partial_cmp` yields an ordering on every pair of elements,
the sorted copy is non-empty so its `first()`/`last()` succeed, and the
panic-aware model returns the pure result. -/
theorem calculate_statistics_no_panic (data : List F64) (hne : data ≠ [])
    (hfin : ∀ x ∈ data, x ≠ F64.nan) :
    (∀ a ∈ data, ∀ b ∈ data, F64.pcmp a b ≠ none)
    ∧ (sortF64 (data.map F64.val)).head? ≠ none
    ∧ (sortF64 (data.map F64.val)).getLast? ≠ none
    ∧ calculate_statisticsChecked data = some (calculate_statistics (data.map F64.val)) := by
  have hsne : sortF64 (data.map F64.val) ≠ [] := by
    have hl : (sortF64 (data.map F64.val)).length = (data.map F64.val).length :=
      (sortF64_perm _).length_eq
    intro h
    rw [h] at hl
    simp only [List.length_nil, eq_comm, List.length_eq_zero, List.map_eq_nil_iff] at hl
    exact hne hl
  refine ⟨?_, ?_, ?_, ?_⟩
  · intro a ha b hb
    cases a with
    | nan => exact absurd rfl (hfin _ ha)
    | num x =>
      cases b with
      | nan => exact absurd rfl (hfin _ hb)
      | num y => simp [F64.pcmp]
  · intro h
    exact hsne (List.head?_eq_none_iff.mp h)
  · intro h
    exact hsne (List.getLast?_eq_none_iff.mp h)
  · simp only [calculate_statisticsChecked, List.isEmpty_iff, if_neg hne]
    have hall : (data.all fun x => !x.isNan) = true := by
      rw [List.all_eq_true]
      intro x hx
      cases x with
      | nan => exact absurd rfl (hfin _ hx)
      | num q => simp [F64.isNan]
    rw [if_pos hall]

/-- Witness for C10 at the NaN-free list `[num 2, num 1]`. -/
theorem calculate_statistics_no_panic_witness :
    (∀ a ∈ [F64.num 2, F64.num 1], ∀ b ∈ [F64.num 2, F64.num 1], F64.pcmp a b ≠ none)
    ∧ (sortF64 ([F64.num 2, F64.num 1].map F64.val)).head? ≠ none
    ∧ (sortF64 ([F64.num 2, F64.num 1].map F64.val)).getLast? ≠ none
    ∧ calculate_statisticsChecked [F64.num 2, F64.num 1]
        = some (calculate_statistics ([F64.num 2, F64.num 1].map F64.val)) :=
  calculate_statistics_no_panic [F64.num 2, F64.num 1] (List.cons_ne_nil _ _)
    (by intro x hx; rcases List.mem_cons.mp hx with rfl | hx'
        · exact fun h => F64.noConfusion h
        · rcases List.mem_cons.mp hx' with rfl | h
          · exact fun h => F64.noConfusion h
          · exact absurd h (List.not_mem_nil _))

/-! ### Fourier transform helper lemmas -/

lemma fourier_foldl (k n : ℕ) :
    ∀ (l : List ℚ) (s : ℕ) (c : ℝ × ℝ),
      (List.enumFrom s l).foldl
          (fun acc tv =>
            (acc.1 + (tv.2 : ℝ) * Real.cos (-2 * Real.pi * ((k * tv.1 : ℕ) : ℝ) / (n : ℝ)),
             acc.2 + (tv.2 : ℝ) * Real.sin (-2 * Real.pi * ((k * tv.1 : ℕ) : ℝ) / (n : ℝ)))) c
        = (c.1 + ∑ t in Finset.range l.length,
              (l.getD t 0 : ℝ) * Real.cos (-2 * Real.pi * ((k * (s + t) : ℕ) : ℝ) / (n : ℝ)),
           c.2 + ∑ t in Finset.range l.length,
              (l.getD t 0 : ℝ) * Real.sin (-2 * Real.pi * ((k * (s + t) : ℕ) : ℝ) / (n : ℝ))) := by
  intro l
  induction l with
  | nil => intro s c; simp
  | cons a t ih =>
    intro s c
    rw [show List.enumFrom s (a :: t) = (s, a) :: List.enumFrom (s + 1) t from rfl,
      List.foldl_cons, ih]
    simp only [Prod.mk.injEq, List.length_cons, Finset.sum_range_succ', List.getD_cons_succ,
      List.getD_cons_zero, Nat.add_zero]
    have hcos : ∑ t' in Finset.range t.length,
        (t.getD t' 0 : ℝ) * Real.cos (-2 * Real.pi * ((k * (s + (t' + 1)) : ℕ) : ℝ) / (n : ℝ))
        = ∑ t' in Finset.range t.length,
          (t.getD t' 0 : ℝ) * Real.cos (-2 * Real.pi * ((k * (s + 1 + t') : ℕ) : ℝ) / (n : ℝ)) :=
      Finset.sum_congr rfl fun t' _ => by rw [show s + (t' + 1) = s + 1 + t' from by omega]
    have hsin : ∑ t' in Finset.range t.length,
        (t.getD t' 0 : ℝ) * Real.sin (-2 * Real.pi * ((k * (s + (t' + 1)) : ℕ) : ℝ) / (n : ℝ))
        = ∑ t' in Finset.range t.length,
          (t.getD t' 0 : ℝ) * Real.sin (-2 * Real.pi * ((k * (s + 1 + t') : ℕ) : ℝ) / (n : ℝ)) :=
      Finset.sum_congr rfl fun t' _ => by rw [show s + (t' + 1) = s + 1 + t' from by omega]
    constructor
    · rw [hcos]; ring
    · rw [hsin]; ring

/-- The `k`-th output of `fourier_transform` is the pair of direct DFT sums. -/
lemma fourier_transform_getD (data : List ℚ) (k : ℕ) (hk : k < data.length) :
    (fourier_transform data).getD k ⟨0, 0⟩
      = ⟨∑ t in Finset.range data.length,
            (data.getD t 0 : ℝ) *
              Real.cos (-2 * Real.pi * ((k * t : ℕ) : ℝ) / (data.length : ℝ)),
         ∑ t in Finset.range data.length,
            (data.getD t 0 : ℝ) *
              Real.sin (-2 * Real.pi * ((k * t : ℕ) : ℝ) / (data.length : ℝ))⟩ := by
  simp only [fourier_transform]
  rw [getD_map_range _ _ _ _ hk]
  rw [show (List.enum data) = List.enumFrom 0 data from rfl, fourier_foldl k data.length]
  simp

lemma sum_range_getD_cast (l : List ℚ) :
    ∑ t in Finset.range l.length, ((l.getD t 0 : ℚ) : ℝ) = ((l.sum : ℚ) : ℝ) := by
  induction l with
  | nil => simp
  | cons a t ih =>
    simp only [List.length_cons, Finset.sum_range_succ', List.getD_cons_succ,
      List.getD_cons_zero, ih, List.sum_cons]
    push_cast
    ring

/-- C5: `fourier_transform` returns exactly `n` outputs, the empty input
yields an empty output, and the `k`-th output is the ascending-`t` direct
sum `X[k] = Σ x[t]·(cos θ + i·sin θ)` with `θ = −2π·k·t / n` (the code's
running accumulation equals this sum, via `fourier_foldl`). -/
theorem fourier_transform_spec (data : List ℚ) :
    (fourier_transform data).length = data.length
    ∧ fourier_transform [] = []
    ∧ ∀ k, k < data.length →
        ((fourier_transform data).getD k ⟨0, 0⟩).real
            = ∑ t in Finset.range data.length,
                (data.getD t 0 : ℝ) *
                  Real.cos (-2 * Real.pi * ((k * t : ℕ) : ℝ) / (data.length : ℝ))
        ∧ ((fourier_transform data).getD k ⟨0, 0⟩).imag
            = ∑ t in Finset.range data.length,
                (data.getD t 0 : ℝ) *
                  Real.sin (-2 * Real.pi * ((k * t : ℕ) : ℝ) / (data.length : ℝ)) := by
  refine ⟨by simp [fourier_transform], by simp [fourier_transform], fun k hk => ?_⟩
  rw [fourier_transform_getD data k hk]
  exact ⟨rfl, rfl⟩

/-- Witness for C5 at `data = [1, 2]`, `k = 1`. -/
theorem fourier_transform_spec_witness :
    (((fourier_transform [1, 2]).getD 1 ⟨0, 0⟩).real
        = ∑ t in Finset.range ([1, 2] : List ℚ).length,
            (([1, 2] : List ℚ).getD t 0 : ℝ) *
              Real.cos (-2 * Real.pi * ((1 * t : ℕ) : ℝ) / (([1, 2] : List ℚ).length : ℝ)))
    ∧ (((fourier_transform [1, 2]).getD 1 ⟨0, 0⟩).imag
        = ∑ t in Finset.range ([1, 2] : List ℚ).length,
            (([1, 2] : List ℚ).getD t 0 : ℝ) *
              Real.sin (-2 * Real.pi * ((1 * t : ℕ) : ℝ) / (([1, 2] : List ℚ).length : ℝ))) :=
  (fourier_transform_spec [1, 2]).2.2 1 (by norm_num)

/-- C6: for non-empty input the zeroth DFT output is the plain sum of the
data with vanishing imaginary part — exactly, since the model's arithmetic
is exact (idealised "within tolerance"). -/
theorem fourier_dc_component (data : List ℚ) (hne : data ≠ []) :
    ((fourier_transform data).getD 0 ⟨0, 0⟩).real = ((data.sum : ℚ) : ℝ)
    ∧ ((fourier_transform data).getD 0 ⟨0, 0⟩).imag = 0 := by
  have hlen : 0 < data.length := List.length_pos.mpr hne
  rw [fourier_transform_getD data 0 hlen]
  constructor
  · simp only [Nat.zero_mul, Nat.cast_zero, mul_zero, zero_div, Real.cos_zero, mul_one]
    exact sum_range_getD_cast data
  · simp [Real.sin_zero]

/-- Witness for C6 at `data = [1, 2, 3]`. -/
theorem fourier_dc_component_witness :
    ((fourier_transform [1, 2, 3]).getD 0 ⟨0, 0⟩).real = ((([1, 2, 3] : List ℚ).sum : ℚ) : ℝ)
    ∧ ((fourier_transform [1, 2, 3]).getD 0 ⟨0, 0⟩).imag = 0 :=
  fourier_dc_component [1, 2, 3] (List.cons_ne_nil _ _)

/-! ### atan2 helper lemmas -/

lemma atan2_range (y x : ℝ) : -Real.pi < atan2 y x ∧ atan2 y x ≤ Real.pi := by
  have hπ := Real.pi_pos
  have ha1 := Real.arctan_lt_pi_div_two (y / x)
  have ha2 := Real.neg_pi_div_two_lt_arctan (y / x)
  rw [atan2]
  split_ifs with hx hx' hy hy' hy''
  · constructor <;> linarith
  · have hyx : y / x ≤ 0 := by
      rw [div_nonpos_iff]
      left
      exact ⟨hy, hx'.le⟩
    have harc : Real.arctan (y / x) ≤ 0 := by
      have := Real.arctan_strictMono.monotone hyx
      rwa [Real.arctan_zero] at this
    constructor <;> linarith
  · have hyx : 0 < y / x := by
      rw [div_pos_iff]
      right
      exact ⟨by linarith, hx'⟩
    have harc : 0 < Real.arctan (y / x) := by
      have := Real.arctan_strictMono hyx
      rwa [Real.arctan_zero] at this
    constructor <;> linarith
  · constructor <;> linarith
  · constructor <;> linarith
  · constructor <;> linarith

/-- C8: `magnitude` is the square root of the sum of squared components
(so its square recovers `real² + imag²`), `phase` is `atan2(imag, real)`,
both total; the phase always lies in `(−π, π]` and is `0` at the origin. -/
theorem complex_magnitude_phase_spec (c : Complex) :
    Complex.magnitude c = Real.sqrt (c.real * c.real + c.imag * c.imag)
    ∧ Complex.magnitude c ^ 2 = c.real ^ 2 + c.imag ^ 2
    ∧ Complex.phase c = atan2 c.imag c.real
    ∧ -Real.pi < Complex.phase c
    ∧ Complex.phase c ≤ Real.pi
    ∧ Complex.phase ⟨0, 0⟩ = 0 := by
  obtain ⟨h1, h2⟩ := atan2_range c.imag c.real
  refine ⟨rfl, ?_, rfl, h1, h2, ?_⟩
  · have hnn : 0 ≤ c.real * c.real + c.imag * c.imag :=
      add_nonneg (mul_self_nonneg _) (mul_self_nonneg _)
    rw [Complex.magnitude, Real.sq_sqrt hnn]
    ring
  · simp [Complex.phase, atan2]

end CvGitCompute
